import Mathlib

/-!
Verification of the merge engine in `scripts/merge_items.py`.

The script's core is three pure functions over JSON-like records:
`item_key` (key derivation), `merge_items` (last-wins primary pass,
non-empty-guarded overlay pass, then canonicalization), and the inline
canonicalization step (stable sort by lower-cased name/id, per-record
field sorting).  This file shallowly embeds those functions over an
explicit JSON value type and proves/refutes the specification claims.

Python dictionaries are modelled as insertion-ordered association lists:
assignment to an existing key keeps its position, assignment to a fresh
key appends.  Python `str` values are modelled by `String`; the handful
of Python string methods the script uses (`str()`, `.lower()`,
`.strip()`, comparison) are given explicit, executable models below.
-/

/-- JSON-compatible values, as the script manipulates them: null, booleans,
integers, text, arrays, and objects (insertion-ordered field lists). -/
inductive JVal where
  | null
  | bool (b : Bool)
  | int (n : Int)
  | str (s : String)
  | arr (xs : List JVal)
  | obj (fields : List (String × JVal))

namespace JVal

mutual
def beq : JVal → JVal → Bool
  | .null, .null => true
  | .bool a, .bool b => a == b
  | .int a, .int b => a == b
  | .str a, .str b => a == b
  | .arr xs, .arr ys => beqList xs ys
  | .obj fs, .obj gs => beqFields fs gs
  | _, _ => false
def beqList : List JVal → List JVal → Bool
  | [], [] => true
  | x :: xs, y :: ys => beq x y && beqList xs ys
  | _, _ => false
def beqFields : List (String × JVal) → List (String × JVal) → Bool
  | [], [] => true
  | (k, v) :: fs, (l, w) :: gs => k == l && beq v w && beqFields fs gs
  | _, _ => false
end

mutual
theorem eq_of_beq : ∀ {a b : JVal}, beq a b = true → a = b
  | .null, .null, _ => rfl
  | .bool a, .bool b, h => by simp [beq] at h; simp [h]
  | .int a, .int b, h => by simp [beq] at h; simp [h]
  | .str a, .str b, h => by simp [beq] at h; simp [h]
  | .arr xs, .arr ys, h => congrArg arr (eqList_of_beqList (by simpa [beq] using h))
  | .obj fs, .obj gs, h => congrArg obj (eqFields_of_beqFields (by simpa [beq] using h))
theorem eqList_of_beqList : ∀ {xs ys : List JVal}, beqList xs ys = true → xs = ys
  | [], [], _ => rfl
  | x :: xs, y :: ys, h => by
      simp only [beqList, Bool.and_eq_true] at h
      rw [eq_of_beq h.1, eqList_of_beqList h.2]
theorem eqFields_of_beqFields : ∀ {fs gs : List (String × JVal)},
    beqFields fs gs = true → fs = gs
  | [], [], _ => rfl
  | (k, v) :: fs, (l, w) :: gs, h => by
      simp only [beqFields, Bool.and_eq_true] at h
      rw [eq_of_beq h.1.2, eqFields_of_beqFields h.2]
      simp only [beq_iff_eq] at h
      rw [h.1.1]
end

mutual
theorem beq_refl : ∀ (a : JVal), beq a a = true
  | .null => rfl
  | .bool a => by simp [beq]
  | .int a => by simp [beq]
  | .str a => by simp [beq]
  | .arr xs => by simp [beq, beqList_refl]
  | .obj fs => by simp [beq, beqFields_refl]
theorem beqList_refl : ∀ (xs : List JVal), beqList xs xs = true
  | [] => rfl
  | x :: xs => by simp [beqList, beq_refl, beqList_refl]
theorem beqFields_refl : ∀ (fs : List (String × JVal)), beqFields fs fs = true
  | [] => rfl
  | (k, v) :: fs => by simp [beqFields, beq_refl, beqFields_refl]
end

instance : DecidableEq JVal := fun a b =>
  if h : beq a b = true then .isTrue (eq_of_beq h)
  else .isFalse (fun he => h (he ▸ beq_refl a))

end JVal

/-- A record: one item's data, a Python dict from field name to value,
in insertion order. -/
abbrev Record := List (String × JVal)

/-! ### Python dictionary operations -/

/-- Python `d.get(k)` / `d[k]`: value at key `k`, if present. -/
def getVal {α : Type} (k : String) : List (String × α) → Option α
  | [] => none
  | (k', v) :: rest => if k' = k then some v else getVal k rest

/-- Python `d[k] = v`: replace in place if the key exists (position kept),
append otherwise. -/
def setVal {α : Type} (k : String) (v : α) : List (String × α) → List (String × α)
  | [] => [(k, v)]
  | (k', v') :: rest => if k' = k then (k, v) :: rest else (k', v') :: setVal k v rest

/-! ### Python string primitives -/

/-- Python `s.lower()` (character-wise lowering). -/
def pyLower (s : String) : String := ⟨s.data.map Char.toLower⟩

def isSpaceChar (c : Char) : Bool := c = ' ' || c = '\t' || c = '\n' || c = '\r'

/-- Python `s.strip()`: remove leading and trailing whitespace. -/
def pyStrip (s : String) : String :=
  ⟨((s.data.dropWhile isSpaceChar).reverse.dropWhile isSpaceChar).reverse⟩

/-- Python string comparison `as <= bs`: lexicographic on code points. -/
def charListLe : List Char → List Char → Bool
  | [], _ => true
  | _ :: _, [] => false
  | a :: as, b :: bs =>
    if a.toNat < b.toNat then true
    else if b.toNat < a.toNat then false
    else charListLe as bs

def strLe (s t : String) : Prop := charListLe s.data t.data = true

instance : DecidableRel strLe := fun s t => instDecidableEqBool (charListLe s.data t.data) true

/-! ### Python `str()` / `repr()` of JSON values -/

/-- Python `repr` of a text value: quote choice and basic escapes. -/
def pyReprStr (s : String) : String :=
  let q : Char := if s.data.contains (Char.ofNat 39) && !(s.data.contains '"')
    then '"' else Char.ofNat 39
  let esc : Char → List Char := fun c =>
    if c = '\\' then ['\\', '\\']
    else if c = q then ['\\', q]
    else if c = '\n' then ['\\', 'n']
    else if c = '\r' then ['\\', 'r']
    else if c = '\t' then ['\\', 't']
    else [c]
  ⟨q :: s.data.foldr (fun c acc => esc c ++ acc) [q]⟩

mutual
/-- Python `repr` of a JSON-compatible value. -/
def pyRepr : JVal → String
  | .null => "None"
  | .bool b => if b then "True" else "False"
  | .int n => toString n
  | .str s => pyReprStr s
  | .arr xs => "[" ++ pyReprList xs ++ "]"
  | .obj fs => "\x7b" ++ pyReprFields fs ++ "\x7d"
def pyReprList : List JVal → String
  | [] => ""
  | [x] => pyRepr x
  | x :: y :: xs => pyRepr x ++ ", " ++ pyReprList (y :: xs)
def pyReprFields : List (String × JVal) → String
  | [] => ""
  | [(k, v)] => pyReprStr k ++ ": " ++ pyRepr v
  | (k, v) :: g :: fs => pyReprStr k ++ ": " ++ pyRepr v ++ ", " ++ pyReprFields (g :: fs)
end

/-- Python `str()` of a JSON-compatible value (identity on text, `repr`-like
on everything else). -/
def pyStrVal : JVal → String
  | .str s => s
  | v => pyRepr v

/-! ### `json.dumps(·, sort_keys=True)` (default separators, `ensure_ascii=True`) -/

def hexDig (n : Nat) : Char :=
  if n < 10 then Char.ofNat (48 + n) else Char.ofNat (87 + n % 16)

def u16hex (n : Nat) : List Char :=
  ['\\', 'u', hexDig (n / 4096 % 16), hexDig (n / 256 % 16), hexDig (n / 16 % 16),
    hexDig (n % 16)]

/-- JSON escaping of one character with `ensure_ascii=True`. -/
def jsonEscCharA (c : Char) : List Char :=
  if c = '"' then ['\\', '"']
  else if c = '\\' then ['\\', '\\']
  else if c = '\n' then ['\\', 'n']
  else if c = '\t' then ['\\', 't']
  else if c = '\r' then ['\\', 'r']
  else if c.toNat = 8 then ['\\', 'b']
  else if c.toNat = 12 then ['\\', 'f']
  else if c.toNat < 32 then u16hex c.toNat
  else if c.toNat ≤ 127 then [c]
  else if c.toNat < 65536 then u16hex c.toNat
  else u16hex (55296 + (c.toNat - 65536) / 1024) ++ u16hex (56320 + (c.toNat - 65536) % 1024)

def jsonQuoteA (s : String) : String :=
  ⟨'"' :: s.data.foldr (fun c acc => jsonEscCharA c ++ acc) ['"']⟩

/-- Ordering of key/value pairs by key, as `sort_keys=True` sorts them. -/
def fstStrLe {α : Type} (a b : String × α) : Prop := strLe a.1 b.1

instance {α : Type} : DecidableRel (@fstStrLe α) := fun a b =>
  inferInstanceAs (Decidable (strLe a.1 b.1))

def joinComma : List String → String
  | [] => ""
  | [s] => s
  | s :: t :: r => s ++ ", " ++ joinComma (t :: r)

mutual
/-- Python `json.dumps(v, sort_keys=True)`: compact separators, keys sorted
at every nesting level, `ensure_ascii=True`. -/
def dumps : JVal → String
  | .null => "null"
  | .bool b => if b then "true" else "false"
  | .int n => toString n
  | .str s => jsonQuoteA s
  | .arr xs => "[" ++ joinComma (dumpsList xs) ++ "]"
  | .obj fs =>
    "\x7b" ++
      joinComma ((List.insertionSort fstStrLe (dumpsFields fs)).map
        (fun kv => jsonQuoteA kv.1 ++ ": " ++ kv.2)) ++ "\x7d"
def dumpsList : List JVal → List String
  | [] => []
  | x :: xs => dumps x :: dumpsList xs
def dumpsFields : List (String × JVal) → List (String × String)
  | [] => []
  | (k, v) :: fs => (k, dumps v) :: dumpsFields fs
end

/-! ### Merge logic (`item_key`, `merge_items`) -/

/-- Python `isinstance(value, (str, int))`; `bool` is a subclass of `int`. -/
def isStrOrInt : JVal → Bool
  | .str _ => true
  | .int _ => true
  | .bool _ => true
  | _ => false

/-- The `for field in ("id", "slug", "name")` loop of `item_key`: first
field present whose value passes the `isinstance` check. -/
def firstUsable (item : Record) : List String → Option JVal
  | [] => none
  | f :: fs =>
    match getVal f item with
    | some v => if isStrOrInt v then some v else firstUsable item fs
    | none => firstUsable item fs

/-- `item_key` from the script: derive a stable key for an item,
`str(value).lower().strip()` of the first usable identity field, falling
back to `json.dumps(item, sort_keys=True)`. -/
def item_key (item : Record) : String :=
  match firstUsable item ["id", "slug", "name"] with
  | some v => pyStrip (pyLower (pyStrVal v))
  | none => dumps (.obj item)

/-- The emptiness test `v in (None, "", [], {})` of the overlay loop. -/
def isEmptyVal : JVal → Bool
  | .null => true
  | .str s => s = ""
  | .arr xs => xs.isEmpty
  | .obj fs => fs.isEmpty
  | _ => false

/-- The overlay loop body: copy each non-empty field of `item` onto `base`. -/
def overlayRecord (base item : Record) : Record :=
  item.foldl (fun b kv => if isEmptyVal kv.2 then b else setVal kv.1 kv.2 b) base

/-- First loop of `merge_items`: insert every MetaForge item keyed by
`item_key` (later duplicates replace earlier ones wholesale). -/
def primaryPass (metaforge_items : List Record) : List (String × Record) :=
  metaforge_items.foldl (fun merged item => setVal (item_key item) item merged) []

/-- One step of the second loop of `merge_items`: overlay onto an existing
entry, or insert as a new entry. -/
def overlayStep (merged : List (String × Record)) (item : Record) :
    List (String × Record) :=
  match getVal (item_key item) merged with
  | some base => setVal (item_key item) (overlayRecord base item) merged
  | none => setVal (item_key item) item merged

/-- Second loop of `merge_items`: RaidTheory overlay / additions. -/
def overlayPass (merged : List (String × Record)) (raidtheory_items : List Record) :
    List (String × Record) :=
  raidtheory_items.foldl overlayStep merged

/-- `sort_key` from the script: `(str(it.get("name", "")).lower(),
str(it.get("id", "")).lower())`. -/
def sort_key (it : Record) : String × String :=
  (pyLower (pyStrVal ((getVal "name" it).getD (.str ""))),
   pyLower (pyStrVal ((getVal "id" it).getD (.str ""))))

/-- Python tuple comparison of two `sort_key` results. -/
def pairLe (a b : String × String) : Prop :=
  (a.1 = b.1 ∧ strLe a.2 b.2) ∨ (a.1 ≠ b.1 ∧ strLe a.1 b.1)

instance : DecidableRel pairLe := fun a b => by unfold pairLe; infer_instance

/-- The record ordering used by `items_list.sort(key=sort_key)`. -/
def recLe (a b : Record) : Prop := pairLe (sort_key a) (sort_key b)

instance : DecidableRel recLe := fun a b => by unfold recLe; infer_instance

/-- Python `sorted` on strings. -/
def sortStrings (l : List String) : List String := List.insertionSort strLe l

/-- `{k: item[k] for k in sorted(item.keys())}`: keys sorted inside each
item so the JSON structure is stable. -/
def normalizeRec (item : Record) : Record :=
  (sortStrings (item.map Prod.fst)).map (fun k => (k, (getVal k item).getD .null))

/-- The "Option C: stable, deterministic output" tail of `merge_items`:
stable sort by `sort_key`, then per-record key normalization. -/
def canonicalize (items : List Record) : List Record :=
  (List.insertionSort recLe items).map normalizeRec

/-- `merge_items` from the script: primary pass, overlay pass, then the
canonicalization of `list(merged.values())`. -/
def merge_items (metaforge_items raidtheory_items : List Record) : List Record :=
  canonicalize ((overlayPass (primaryPass metaforge_items) raidtheory_items).map Prod.snd)

/-! ### Writer serialization: `json.dump(items, f, indent=2, ensure_ascii=False)` -/

def spaces (n : Nat) : String := ⟨List.replicate n ' '⟩

/-- JSON escaping of one character with `ensure_ascii=False`: non-ASCII
characters stay literal, control characters and the JSON metacharacters are
escaped. -/
def jsonEscCharNA (c : Char) : List Char :=
  if c = '"' then ['\\', '"']
  else if c = '\\' then ['\\', '\\']
  else if c = '\n' then ['\\', 'n']
  else if c = '\t' then ['\\', 't']
  else if c = '\r' then ['\\', 'r']
  else if c.toNat = 8 then ['\\', 'b']
  else if c.toNat = 12 then ['\\', 'f']
  else if c.toNat < 32 then u16hex c.toNat
  else [c]

def jsonQuoteNA (s : String) : String :=
  ⟨'"' :: s.data.foldr (fun c acc => jsonEscCharNA c ++ acc) ['"']⟩

mutual
/-- One value of the writer's output, at enclosing indentation `ind`;
containers spread over lines with two extra spaces of indentation. -/
def writeVal : Nat → JVal → String
  | _, .null => "null"
  | _, .bool b => if b then "true" else "false"
  | _, .int n => toString n
  | _, .str s => jsonQuoteNA s
  | _, .arr [] => "[]"
  | ind, .arr (x :: xs) =>
    "[\n" ++ writeItems (ind + 2) (x :: xs) ++ "\n" ++ spaces ind ++ "]"
  | _, .obj [] => "\x7b\x7d"
  | ind, .obj (f :: fs) =>
    "\x7b\n" ++ writeEntries (ind + 2) (f :: fs) ++ "\n" ++ spaces ind ++ "\x7d"
def writeItems : Nat → List JVal → String
  | _, [] => ""
  | ind, [x] => spaces ind ++ writeVal ind x
  | ind, x :: y :: xs => spaces ind ++ writeVal ind x ++ ",\n" ++ writeItems ind (y :: xs)
def writeEntries : Nat → List (String × JVal) → String
  | _, [] => ""
  | ind, [(k, v)] => spaces ind ++ jsonQuoteNA k ++ ": " ++ writeVal ind v
  | ind, (k, v) :: g :: fs =>
    spaces ind ++ jsonQuoteNA k ++ ": " ++ writeVal ind v ++ ",\n" ++
      writeEntries ind (g :: fs)
end

/-- The bytes `write_items` puts on disk for a merged item list. -/
def writeJson (items : List Record) : String := writeVal 0 (.arr (items.map .obj))

/-! ### Value equality irrespective of mapping insertion order -/

mutual
/-- Normal form for "equal as a value, regardless of insertion history":
every mapping's fields sorted by key, at every depth.  Two values are equal
as Python values (ignoring dict order) iff their `deepSort` normal forms
coincide. -/
def deepSort : JVal → JVal
  | .null => .null
  | .bool b => .bool b
  | .int n => .int n
  | .str s => .str s
  | .arr xs => .arr (deepSortList xs)
  | .obj fs => .obj (List.insertionSort fstStrLe (deepSortFields fs))
def deepSortList : List JVal → List JVal
  | [] => []
  | x :: xs => deepSort x :: deepSortList xs
def deepSortFields : List (String × JVal) → List (String × JVal)
  | [] => []
  | (k, v) :: fs => (k, deepSort v) :: deepSortFields fs
end

/-! ### Spec-side key derivation, for comparison with `item_key` -/

/-- Spec-side usability test, following the specification's words: the
value "is text or an integer", converted to text.  Booleans are not
included: the spec's data model lists booleans separately from numbers. -/
def usableTextSpec : JVal → Option String
  | .str s => some s
  | .int n => some (toString n)
  | _ => none

/-- Key derivation as the specification describes it: try the identifier,
slug and display-name fields in order, first usable (text-or-integer) value
wins, normalized by lower-casing and stripping; otherwise fall back to the
deterministic sorted-field serialization of the whole record. -/
def deriveKeySpec (r : Record) : String :=
  match (["id", "slug", "name"].filterMap (fun f => (getVal f r).bind usableTextSpec)).head? with
  | some s => pyStrip (pyLower s)
  | none => dumps (.obj r)

/-- Spec-side usability test amended to accept booleans as integers, the
boolean rendering as Python text `True` / `False`. -/
def usableTextAmended : JVal → Option String
  | .str s => some s
  | .int n => some (toString n)
  | .bool b => some (if b then "True" else "False")
  | _ => none

/-- Key derivation per the amended claim: like `deriveKeySpec` but a boolean
value is also usable (the implementation's `isinstance(value, (str, int))`
accepts `bool` as an `int` subtype). -/
def deriveKeyAmended (r : Record) : String :=
  match (["id", "slug", "name"].filterMap
      (fun f => (getVal f r).bind usableTextAmended)).head? with
  | some s => pyStrip (pyLower s)
  | none => dumps (.obj r)

/-! ### Order properties of the string comparison -/

theorem charListLe_total : ∀ as bs, charListLe as bs = true ∨ charListLe bs as = true
  | [], _ => .inl rfl
  | _ :: _, [] => .inr rfl
  | a :: as, b :: bs => by
      simp only [charListLe]
      rcases Nat.lt_trichotomy a.toNat b.toNat with h | h | h
      · left; simp [h]
      · have h1 : ¬ a.toNat < b.toNat := by omega
        have h2 : ¬ b.toNat < a.toNat := by omega
        simpa [h1, h2] using charListLe_total as bs
      · right; simp [h]

theorem charListLe_trans : ∀ as bs cs, charListLe as bs = true → charListLe bs cs = true →
    charListLe as cs = true
  | [], _, _, _, _ => rfl
  | _ :: _, [], _, h1, _ => by simp [charListLe] at h1
  | _ :: _, _ :: _, [], _, h2 => by simp [charListLe] at h2
  | a :: as, b :: bs, c :: cs, h1, h2 => by
      simp only [charListLe] at h1 h2 ⊢
      rcases Nat.lt_trichotomy a.toNat b.toNat with hab | hab | hab
      · rcases Nat.lt_trichotomy b.toNat c.toNat with hbc | hbc | hbc
        · simp [show a.toNat < c.toNat by omega]
        · simp [show a.toNat < c.toNat by omega]
        · rw [if_neg (by omega), if_pos hbc] at h2
          exact absurd h2 (by simp)
      · rcases Nat.lt_trichotomy b.toNat c.toNat with hbc | hbc | hbc
        · simp [show a.toNat < c.toNat by omega]
        · rw [if_neg (by omega), if_neg (by omega)] at h1
          rw [if_neg (by omega), if_neg (by omega)] at h2
          rw [if_neg (by omega), if_neg (by omega)]
          exact charListLe_trans as bs cs h1 h2
        · rw [if_neg (by omega), if_pos hbc] at h2
          exact absurd h2 (by simp)
      · rw [if_neg (by omega), if_pos hab] at h1
        exact absurd h1 (by simp)

theorem charListLe_antisymm : ∀ as bs, charListLe as bs = true → charListLe bs as = true →
    as = bs
  | [], [], _, _ => rfl
  | [], _ :: _, _, h2 => by simp [charListLe] at h2
  | _ :: _, [], h1, _ => by simp [charListLe] at h1
  | a :: as, b :: bs, h1, h2 => by
      simp only [charListLe] at h1 h2
      rcases Nat.lt_trichotomy a.toNat b.toNat with hab | hab | hab
      · rw [if_neg (by omega), if_pos hab] at h2
        exact absurd h2 (by simp)
      · rw [if_neg (by omega), if_neg (by omega)] at h1
        rw [if_neg (by omega), if_neg (by omega)] at h2
        rw [Char.ext (UInt32.ext hab), charListLe_antisymm as bs h1 h2]
      · rw [if_neg (by omega), if_pos hab] at h1
        exact absurd h1 (by simp)

instance : IsTotal String strLe := ⟨fun a b => charListLe_total a.data b.data⟩
instance : IsTrans String strLe := ⟨fun a b c => charListLe_trans a.data b.data c.data⟩
instance : IsAntisymm String strLe :=
  ⟨fun a b h1 h2 => String.ext (charListLe_antisymm a.data b.data h1 h2)⟩

instance : IsTotal (String × String) pairLe := by
  constructor
  intro a b
  by_cases h : a.1 = b.1
  · rcases charListLe_total a.2.data b.2.data with hs | hs
    · exact .inl (.inl ⟨h, hs⟩)
    · exact .inr (.inl ⟨h.symm, hs⟩)
  · rcases charListLe_total a.1.data b.1.data with hs | hs
    · exact .inl (.inr ⟨h, hs⟩)
    · exact .inr (.inr ⟨fun he => h he.symm, hs⟩)

instance : IsTrans (String × String) pairLe := by
  constructor
  rintro a b c (⟨hab, sab⟩ | ⟨hab, sab⟩) (⟨hbc, sbc⟩ | ⟨hbc, sbc⟩)
  · exact .inl ⟨hab.trans hbc, charListLe_trans _ _ _ sab sbc⟩
  · refine .inr ⟨?_, ?_⟩
    · rw [hab]; exact hbc
    · rw [hab]; exact sbc
  · refine .inr ⟨?_, ?_⟩
    · rw [← hbc]; exact hab
    · rw [← hbc]; exact sab
  · by_cases hac : a.1 = c.1
    · have hba : strLe b.1 a.1 := by rw [hac]; exact sbc
      exact absurd (String.ext (charListLe_antisymm _ _ sab hba)) hab
    · exact .inr ⟨hac, charListLe_trans _ _ _ sab sbc⟩

instance : IsTotal Record recLe := ⟨fun a b => IsTotal.total (sort_key a) (sort_key b)⟩
instance : IsTrans Record recLe :=
  ⟨fun a b c => IsTrans.trans (r := pairLe) (sort_key a) (sort_key b) (sort_key c)⟩

/-! ### Dictionary lemmas -/

theorem getVal_setVal_self {α : Type} (k : String) (v : α) :
    ∀ m : List (String × α), getVal k (setVal k v m) = some v
  | [] => by simp [setVal, getVal]
  | (k', v') :: rest => by
      by_cases h : k' = k
      · simp [setVal, h, getVal]
      · simp [setVal, h, getVal, getVal_setVal_self k v rest]

theorem getVal_setVal_ne {α : Type} {k κ : String} (v : α) (hk : k ≠ κ) :
    ∀ m : List (String × α), getVal κ (setVal k v m) = getVal κ m
  | [] => by simp [setVal, getVal, hk]
  | (k', v') :: rest => by
      by_cases h : k' = k
      · simp [setVal, h, getVal, hk, getVal_setVal_ne v hk rest]
      · simp [setVal, h, getVal, getVal_setVal_ne v hk rest]

theorem setVal_eq_append {α : Type} (k : String) (v : α) :
    ∀ m : List (String × α), k ∉ m.map Prod.fst → setVal k v m = m ++ [(k, v)]
  | [], _ => rfl
  | (k', v') :: rest, h => by
      rw [List.map_cons] at h
      have h1 : k' ≠ k := fun he => h (List.mem_cons.mpr (Or.inl he.symm))
      have h2 : k ∉ rest.map Prod.fst := fun hm => h (List.mem_cons_of_mem _ hm)
      simp [setVal, h1, setVal_eq_append k v rest h2]

theorem getVal_eq_none_iff {α : Type} (k : String) :
    ∀ m : List (String × α), getVal k m = none ↔ k ∉ m.map Prod.fst
  | [] => by simp [getVal]
  | (k', v') :: rest => by
      rw [List.map_cons]
      by_cases h : k' = k
      · subst h; simp [getVal]
      · rw [getVal, if_neg h, getVal_eq_none_iff k rest]
        simp only [List.mem_cons, not_or]
        exact ⟨fun hn => ⟨fun he => h he.symm, hn⟩, fun hn => hn.2⟩

theorem getVal_some_of_mem {α : Type} (k : String) (m : List (String × α))
    (h : k ∈ m.map Prod.fst) : ∃ v, getVal k m = some v := by
  cases hv : getVal k m with
  | none => exact absurd ((getVal_eq_none_iff k m).mp hv) (fun hn => hn h)
  | some v => exact ⟨v, rfl⟩

/-! ### Primary-pass lemmas -/

theorem getVal_primaryFold (A : List Record) (m : List (String × Record)) (κ : String) :
    getVal κ (A.foldl (fun merged item => setVal (item_key item) item merged) m) =
      ((A.reverse.find? (fun r => item_key r == κ)).or (getVal κ m)) := by
  induction A generalizing m with
  | nil => simp
  | cons a A ih =>
      rw [List.foldl_cons, ih, List.reverse_cons, List.find?_append, Option.or_assoc]
      congr 1
      by_cases h : item_key a = κ
      · subst h
        simp [List.find?, getVal_setVal_self]
      · have hb : (item_key a == κ) = false := by simp [h]
        simp [List.find?, hb, getVal_setVal_ne a h]

theorem getVal_primaryPass (A : List Record) (κ : String) :
    getVal κ (primaryPass A) = A.reverse.find? (fun r => item_key r == κ) := by
  rw [primaryPass, getVal_primaryFold]
  simp [getVal]

theorem find?_reverse_of_nodup (A : List Record) (p : Record) (hp : p ∈ A)
    (hnd : (A.map item_key).Nodup) :
    A.reverse.find? (fun r => item_key r == item_key p) = some p := by
  have hsome : (A.reverse.find? (fun r => item_key r == item_key p)).isSome := by
    rw [List.find?_isSome]
    exact ⟨p, List.mem_reverse.mpr hp, by simp⟩
  obtain ⟨q, hq⟩ := Option.isSome_iff_exists.mp hsome
  have hqmem : q ∈ A := List.mem_reverse.mp (List.mem_of_find?_eq_some hq)
  have hqkey : item_key q = item_key p := by simpa using List.find?_some hq
  rw [hq, List.inj_on_of_nodup_map hnd hqmem hp hqkey]

theorem getVal_primaryPass_of_nodup (A : List Record) (p : Record) (hp : p ∈ A)
    (hnd : (A.map item_key).Nodup) :
    getVal (item_key p) (primaryPass A) = some p := by
  rw [getVal_primaryPass, find?_reverse_of_nodup A p hp hnd]

/-! ### Overlay-pass lemmas -/

theorem getVal_overlayStep_ne (m : List (String × Record)) (b : Record) {κ : String}
    (hk : item_key b ≠ κ) : getVal κ (overlayStep m b) = getVal κ m := by
  unfold overlayStep
  cases h : getVal (item_key b) m <;> simp [getVal_setVal_ne _ hk]

theorem getVal_overlayFold_not_mem (B : List Record) (m : List (String × Record))
    (κ : String) (h : κ ∉ B.map item_key) :
    getVal κ (B.foldl overlayStep m) = getVal κ m := by
  induction B generalizing m with
  | nil => rfl
  | cons b B ih =>
      simp only [List.map_cons, List.mem_cons, not_or] at h
      rw [List.foldl_cons, ih _ h.2, getVal_overlayStep_ne m b (fun he => h.1 he.symm)]

theorem getVal_overlayFold_unique (B : List Record) (q p : Record)
    (m : List (String × Record)) (hq : q ∈ B) (hnd : (B.map item_key).Nodup)
    (hm : getVal (item_key q) m = some p) :
    getVal (item_key q) (B.foldl overlayStep m) = some (overlayRecord p q) := by
  induction B generalizing m with
  | nil => exact absurd hq (List.not_mem_nil q)
  | cons b B ih =>
      simp only [List.map_cons, List.nodup_cons] at hnd
      rcases List.mem_cons.mp hq with rfl | hqB
      · rw [List.foldl_cons]
        have hstep : overlayStep m q = setVal (item_key q) (overlayRecord p q) m := by
          unfold overlayStep; rw [hm]
        rw [hstep, getVal_overlayFold_not_mem B _ _ hnd.1, getVal_setVal_self]
      · have hne : item_key b ≠ item_key q :=
          fun he => hnd.1 (he ▸ List.mem_map_of_mem item_key hqB)
        rw [List.foldl_cons]
        exact ih _ hqB hnd.2 (by rw [getVal_overlayStep_ne m b hne]; exact hm)

/-! ### Overlay-record lemmas -/

theorem getVal_overlayRecord_not_mem (q : Record) {f : String} (h : f ∉ q.map Prod.fst) :
    ∀ base, getVal f (overlayRecord base q) = getVal f base := by
  induction q with
  | nil => intro base; rfl
  | cons kv rest ih =>
      intro base
      obtain ⟨k, w⟩ := kv
      simp only [List.map_cons, List.mem_cons, not_or] at h
      rw [overlayRecord, List.foldl_cons]
      have : getVal f (overlayRecord (if isEmptyVal w then base else setVal k w base) rest) =
          getVal f (if isEmptyVal w then base else setVal k w base) := ih h.2 _
      rw [overlayRecord] at this
      rw [this]
      by_cases he : isEmptyVal w
      · simp [he]
      · simp [he, getVal_setVal_ne w (fun hk => h.1 hk.symm)]

theorem getVal_overlayRecord_nonempty (q : Record) {f : String} {v : JVal}
    (hnd : (q.map Prod.fst).Nodup) (hv : getVal f q = some v)
    (hne : isEmptyVal v = false) :
    ∀ base, getVal f (overlayRecord base q) = some v := by
  induction q with
  | nil => intro base; simp [getVal] at hv
  | cons kv rest ih =>
      intro base
      obtain ⟨k, w⟩ := kv
      simp only [List.map_cons, List.nodup_cons] at hnd
      rw [overlayRecord, List.foldl_cons]
      by_cases hk : k = f
      · subst hk
        rw [getVal, if_pos rfl] at hv
        injection hv with hv
        subst hv
        rw [hne]
        simp only [Bool.false_eq_true, if_false]
        have := getVal_overlayRecord_not_mem rest hnd.1 (setVal k w base)
        rw [overlayRecord] at this
        rw [this, getVal_setVal_self]
      · rw [getVal, if_neg hk] at hv
        have := ih hnd.2 hv (if isEmptyVal w then base else setVal k w base)
        rw [overlayRecord] at this
        rw [this]

theorem getVal_overlayRecord_empty (q : Record) {f : String}
    (hnd : (q.map Prod.fst).Nodup)
    (he : ∀ v, getVal f q = some v → isEmptyVal v = true) :
    ∀ base, getVal f (overlayRecord base q) = getVal f base := by
  induction q with
  | nil => intro base; rfl
  | cons kv rest ih =>
      intro base
      obtain ⟨k, w⟩ := kv
      simp only [List.map_cons, List.nodup_cons] at hnd
      rw [overlayRecord, List.foldl_cons]
      by_cases hk : k = f
      · subst hk
        have hw : isEmptyVal w = true := he w (by rw [getVal, if_pos rfl])
        rw [hw]
        simp only [if_true]
        have := getVal_overlayRecord_not_mem rest hnd.1 base
        rw [overlayRecord] at this
        exact this
      · have he' : ∀ v, getVal f rest = some v → isEmptyVal v = true := by
          intro v hv
          exact he v (by rw [getVal, if_neg hk]; exact hv)
        have := ih hnd.2 he' (if isEmptyVal w then base else setVal k w base)
        rw [overlayRecord] at this
        rw [this]
        by_cases hw : isEmptyVal w
        · simp [hw]
        · simp [hw, getVal_setVal_ne w hk]

/-! ### Structural lemmas for disjoint merges -/

theorem primaryFold_eq_append (A : List Record) :
    ∀ m : List (String × Record), (A.map item_key).Nodup →
    (∀ r ∈ A, item_key r ∉ m.map Prod.fst) →
    A.foldl (fun merged item => setVal (item_key item) item merged) m =
      m ++ A.map (fun r => (item_key r, r)) := by
  induction A with
  | nil => intro m _ _; simp
  | cons a A ih =>
      intro m hnd hdis
      simp only [List.map_cons, List.nodup_cons] at hnd
      rw [List.foldl_cons, setVal_eq_append _ _ m (hdis a (List.mem_cons_self a A))]
      rw [ih _ hnd.2]
      · simp
      · intro r hr
        simp only [List.map_append, List.mem_append, List.map_cons, not_or]
        refine ⟨hdis r (List.mem_cons_of_mem a hr), ?_⟩
        simp only [List.map_nil, List.mem_singleton]
        exact fun he => hnd.1 (he ▸ List.mem_map_of_mem item_key hr)

theorem overlayFold_eq_append (B : List Record) :
    ∀ m : List (String × Record), (B.map item_key).Nodup →
    (∀ r ∈ B, item_key r ∉ m.map Prod.fst) →
    B.foldl overlayStep m = m ++ B.map (fun r => (item_key r, r)) := by
  induction B with
  | nil => intro m _ _; simp
  | cons b B ih =>
      intro m hnd hdis
      simp only [List.map_cons, List.nodup_cons] at hnd
      have hnone : getVal (item_key b) m = none :=
        (getVal_eq_none_iff _ m).mpr (hdis b (List.mem_cons_self b B))
      have hstep : overlayStep m b = m ++ [(item_key b, b)] := by
        unfold overlayStep
        rw [hnone, setVal_eq_append _ _ m (hdis b (List.mem_cons_self b B))]
      rw [List.foldl_cons, hstep, ih _ hnd.2]
      · simp
      · intro r hr
        simp only [List.map_append, List.mem_append, List.map_cons, not_or]
        refine ⟨hdis r (List.mem_cons_of_mem b hr), ?_⟩
        simp only [List.map_nil, List.mem_singleton]
        exact fun he => hnd.1 (he ▸ List.mem_map_of_mem item_key hr)

/-! ### Claim C1: overlay precedence -/

/-- C1: for a key present in both sources (a primary record `p` and a
secondary record `q` derive the same key, with keys unique within each
source), every field whose value in `q` is non-empty ends up in the merged
record for that key with exactly `q`'s value, whatever `p` had there. -/
theorem claim1_overlay_precedence (A B : List Record) (p q : Record) (f : String)
    (v : JVal) (hp : p ∈ A) (hq : q ∈ B) (hk : item_key q = item_key p)
    (hB : (B.map item_key).Nodup) (hqf : (q.map Prod.fst).Nodup)
    (hv : getVal f q = some v) (hne : isEmptyVal v = false) :
    ∃ r, getVal (item_key p) (overlayPass (primaryPass A) B) = some r ∧
      getVal f r = some v := by
  have hfind : (A.reverse.find? (fun r => item_key r == item_key p)).isSome := by
    rw [List.find?_isSome]
    exact ⟨p, List.mem_reverse.mpr hp, by simp⟩
  obtain ⟨base, hbase⟩ := Option.isSome_iff_exists.mp hfind
  have hbase' : getVal (item_key p) (primaryPass A) = some base := by
    rw [getVal_primaryPass]; exact hbase
  have hfold := getVal_overlayFold_unique B q base (primaryPass A) hq hB
    (by rw [hk]; exact hbase')
  rw [hk] at hfold
  exact ⟨overlayRecord base q, hfold, getVal_overlayRecord_nonempty q hqf hv hne base⟩

theorem claim1_witness :
    ∃ r, getVal (item_key [("id", JVal.str "a1"), ("tier", JVal.int 1)])
        (overlayPass (primaryPass [[("id", JVal.str "a1"), ("tier", JVal.int 1)]])
          [[("id", JVal.str "a1"), ("tier", JVal.str "two")]]) = some r ∧
      getVal "tier" r = some (JVal.str "two") :=
  claim1_overlay_precedence
    [[("id", JVal.str "a1"), ("tier", JVal.int 1)]]
    [[("id", JVal.str "a1"), ("tier", JVal.str "two")]]
    [("id", JVal.str "a1"), ("tier", JVal.int 1)]
    [("id", JVal.str "a1"), ("tier", JVal.str "two")]
    "tier" (JVal.str "two")
    (by decide) (by decide) (by decide) (by decide) (by decide) (by decide) (by decide)

/-! ### Claim C2: overlay non-destruction -/

/-- C2: for a key present in both sources, a field that is empty in, or
absent from, the secondary record `q` keeps the primary record `p`'s value
unchanged in the merged record for that key. -/
theorem claim2_overlay_preserves (A B : List Record) (p q : Record) (f : String)
    (hp : p ∈ A) (hq : q ∈ B) (hk : item_key q = item_key p)
    (hA : (A.map item_key).Nodup) (hB : (B.map item_key).Nodup)
    (hqf : (q.map Prod.fst).Nodup)
    (hemp : ∀ v, getVal f q = some v → isEmptyVal v = true) :
    ∃ r, getVal (item_key p) (overlayPass (primaryPass A) B) = some r ∧
      getVal f r = getVal f p := by
  have hbase := getVal_primaryPass_of_nodup A p hp hA
  have hfold := getVal_overlayFold_unique B q p (primaryPass A) hq hB
    (by rw [hk]; exact hbase)
  rw [hk] at hfold
  exact ⟨overlayRecord p q, hfold, getVal_overlayRecord_empty q hqf hemp p⟩

theorem claim2_witness :
    ∃ r, getVal (item_key [("id", JVal.str "a1"), ("notes", JVal.str "keep")])
        (overlayPass (primaryPass [[("id", JVal.str "a1"), ("notes", JVal.str "keep")]])
          [[("id", JVal.str "a1"), ("notes", JVal.str "")]]) = some r ∧
      getVal "notes" r = getVal "notes" [("id", JVal.str "a1"), ("notes", JVal.str "keep")] :=
  claim2_overlay_preserves
    [[("id", JVal.str "a1"), ("notes", JVal.str "keep")]]
    [[("id", JVal.str "a1"), ("notes", JVal.str "")]]
    [("id", JVal.str "a1"), ("notes", JVal.str "keep")]
    [("id", JVal.str "a1"), ("notes", JVal.str "")]
    "notes"
    (by decide) (by decide) (by decide) (by decide) (by decide) (by decide)
    (by
      intro v hv
      have hs : getVal "notes" [("id", JVal.str "a1"), ("notes", JVal.str "")] =
          some (JVal.str "") := by decide
      rw [hs] at hv
      injection hv with hv
      rw [← hv]
      decide)

/-! ### Claim C9: last primary duplicate wins wholesale -/

/-- C9: when the primary list contains two or more records deriving the same
key, the merged collection's entry for that key after the primary pass is a
full copy of the last such record (no field-level overlay within primary). -/
theorem claim9_primary_last_wins (A : List Record) (κ : String) (q : Record)
    (hdup : 2 ≤ (A.filter (fun r => item_key r == κ)).length)
    (hlast : A.reverse.find? (fun r => item_key r == κ) = some q) :
    getVal κ (primaryPass A) = some q := by
  rw [getVal_primaryPass, hlast]

theorem claim9_witness :
    getVal "x" (primaryPass
      [[("id", JVal.str "x"), ("tier", JVal.int 1)],
       [("id", JVal.str "x"), ("tier", JVal.int 2)]]) =
      some [("id", JVal.str "x"), ("tier", JVal.int 2)] :=
  claim9_primary_last_wins
    [[("id", JVal.str "x"), ("tier", JVal.int 1)],
     [("id", JVal.str "x"), ("tier", JVal.int 2)]]
    "x"
    [("id", JVal.str "x"), ("tier", JVal.int 2)]
    (by decide) (by decide)

/-! ### Claim C6: size of a key-disjoint merge -/

/-- C6 counterexample: duplicate keys inside the primary list alone collapse,
so cross-source key disjointness does not guarantee size `len(A) + len(B)`:
here the secondary key is absent from the primary keys, yet the merged
collection has 2 entries, not `2 + 1`. -/
theorem claim6_counterexample :
    item_key [("id", JVal.str "y")] ∉
      List.map item_key [[("id", JVal.str "x")], [("id", JVal.str "x")]] ∧
    (overlayPass (primaryPass [[("id", JVal.str "x")], [("id", JVal.str "x")]])
        [[("id", JVal.str "y")]]).length ≠
      ([[("id", JVal.str "x")], [("id", JVal.str "x")]] : List Record).length +
        ([[("id", JVal.str "y")]] : List Record).length ∧
    (merge_items [[("id", JVal.str "x")], [("id", JVal.str "x")]]
        [[("id", JVal.str "y")]]).length ≠ 3 := by
  refine ⟨by decide, by decide, by decide⟩

/-- C6 (amended): if additionally the keys within each source are pairwise
distinct, then a key-disjoint merge has size `len(A) + len(B)`, both as the
merged collection and as the final `merge_items` output. -/
theorem claim6_disjoint_size (A B : List Record)
    (hA : (A.map item_key).Nodup) (hB : (B.map item_key).Nodup)
    (hdis : ∀ r ∈ B, item_key r ∉ A.map item_key) :
    (overlayPass (primaryPass A) B).length = A.length + B.length ∧
      (merge_items A B).length = A.length + B.length := by
  have hpp : primaryPass A = A.map (fun r => (item_key r, r)) := by
    rw [primaryPass, primaryFold_eq_append A [] hA (by intro r _; simp)]
    simp
  have hkeys : (primaryPass A).map Prod.fst = A.map item_key := by
    rw [hpp, List.map_map]
    rfl
  have hov : overlayPass (primaryPass A) B =
      primaryPass A ++ B.map (fun r => (item_key r, r)) := by
    rw [overlayPass, overlayFold_eq_append B (primaryPass A) hB
      (by intro r hr; rw [hkeys]; exact hdis r hr)]
  have hlen : (overlayPass (primaryPass A) B).length = A.length + B.length := by
    rw [hov, List.length_append, hpp, List.length_map, List.length_map]
  refine ⟨hlen, ?_⟩
  rw [merge_items, canonicalize, List.length_map,
    (List.perm_insertionSort recLe _).length_eq, List.length_map, hlen]

theorem claim6_witness :
    (overlayPass (primaryPass [[("id", JVal.str "x")]]) [[("id", JVal.str "y")]]).length =
        ([[("id", JVal.str "x")]] : List Record).length +
          ([[("id", JVal.str "y")]] : List Record).length ∧
      (merge_items [[("id", JVal.str "x")]] [[("id", JVal.str "y")]]).length =
        ([[("id", JVal.str "x")]] : List Record).length +
          ([[("id", JVal.str "y")]] : List Record).length :=
  claim6_disjoint_size [[("id", JVal.str "x")]] [[("id", JVal.str "y")]]
    (by decide) (by decide) (by decide)

/-! ### Claim C8: empty lists as merge identities -/

/-- C8 counterexample: with an empty primary, the output is not literally the
secondary list: `merge_items` canonicalizes, here reordering the two records
by lower-cased name. -/
theorem claim8_counterexample :
    merge_items [] [[("name", JVal.str "b")], [("name", JVal.str "a")]] ≠
      [[("name", JVal.str "b")], [("name", JVal.str "a")]] := by decide

/-- C8 (amended): when each source's keys are pairwise distinct, merging with
an empty other source is the identity up to canonicalization: the output is
exactly the canonicalized other source, and merging two empty lists gives the
empty sequence. -/
theorem claim8_empty_identity (A B : List Record)
    (hA : (A.map item_key).Nodup) (hB : (B.map item_key).Nodup) :
    merge_items [] B = canonicalize B ∧ merge_items A [] = canonicalize A ∧
      merge_items ([] : List Record) [] = [] := by
  refine ⟨?_, ?_, rfl⟩
  · have h2 : overlayPass (primaryPass []) B = B.map (fun r => (item_key r, r)) := by
      rw [overlayPass, overlayFold_eq_append B _ hB (by intro r _; simp [primaryPass])]
      rfl
    rw [merge_items, h2, List.map_map]
    have h3 : (Prod.snd ∘ fun r : Record => (item_key r, r)) = id := rfl
    rw [h3, List.map_id]
  · have h1 : overlayPass (primaryPass A) [] = primaryPass A := rfl
    rw [merge_items, h1, primaryPass,
      primaryFold_eq_append A [] hA (by intro r _; simp), List.nil_append, List.map_map]
    have h3 : (Prod.snd ∘ fun r : Record => (item_key r, r)) = id := rfl
    rw [h3, List.map_id]

theorem claim8_witness :
    merge_items [] [[("id", JVal.str "y")]] = canonicalize [[("id", JVal.str "y")]] ∧
      merge_items [[("id", JVal.str "x")]] [] = canonicalize [[("id", JVal.str "x")]] ∧
      merge_items ([] : List Record) [] = [] :=
  claim8_empty_identity [[("id", JVal.str "x")]] [[("id", JVal.str "y")]]
    (by decide) (by decide)

/-! ### Normalization lemmas -/

theorem getVal_map_keyfun {α : Type} (f : String → α) (k : String) :
    ∀ l : List String, getVal k (l.map (fun k' => (k', f k'))) =
      if k ∈ l then some (f k) else none
  | [] => by simp [getVal]
  | k' :: l => by
      by_cases h : k' = k
      · subst h
        simp [getVal]
      · rw [List.map_cons, getVal, if_neg h, getVal_map_keyfun f k l]
        by_cases hm : k ∈ l
        · rw [if_pos hm, if_pos (List.mem_cons_of_mem _ hm)]
        · rw [if_neg hm, if_neg ?_]
          intro hc
          rcases List.mem_cons.mp hc with he | hm2
          · exact h he.symm
          · exact hm hm2

theorem mem_sortStrings (k : String) (l : List String) : k ∈ sortStrings l ↔ k ∈ l :=
  (List.perm_insertionSort strLe l).mem_iff

theorem getVal_normalizeRec (d : Record) (k : String) :
    getVal k (normalizeRec d) = getVal k d := by
  rw [normalizeRec, getVal_map_keyfun]
  by_cases hm : k ∈ d.map Prod.fst
  · rw [if_pos ((mem_sortStrings k _).mpr hm)]
    obtain ⟨v, hv⟩ := getVal_some_of_mem k d hm
    rw [hv]
    rfl
  · rw [if_neg (fun hc => hm ((mem_sortStrings k _).mp hc))]
    exact ((getVal_eq_none_iff k d).mpr hm).symm

theorem sort_key_normalizeRec (d : Record) : sort_key (normalizeRec d) = sort_key d := by
  rw [sort_key, sort_key, getVal_normalizeRec, getVal_normalizeRec]

theorem keys_normalizeRec (d : Record) :
    (normalizeRec d).map Prod.fst = sortStrings (d.map Prod.fst) := by
  rw [normalizeRec, List.map_map]
  have h : (Prod.fst ∘ fun k => (k, (getVal k d).getD JVal.null)) = id := rfl
  rw [h, List.map_id]

theorem sortStrings_idem (l : List String) : sortStrings (sortStrings l) = sortStrings l :=
  List.Sorted.insertionSort_eq (List.sorted_insertionSort strLe l)

theorem normalizeRec_idem (d : Record) : normalizeRec (normalizeRec d) = normalizeRec d := by
  have h1 : normalizeRec (normalizeRec d) =
      (sortStrings ((normalizeRec d).map Prod.fst)).map
        (fun k => (k, (getVal k (normalizeRec d)).getD JVal.null)) := rfl
  rw [h1, keys_normalizeRec, sortStrings_idem,
    show (fun k => (k, (getVal k (normalizeRec d)).getD JVal.null)) =
      (fun k => (k, (getVal k d).getD JVal.null)) from
        funext (fun k => by rw [getVal_normalizeRec])]
  rfl

theorem sorted_map_normalizeRec {l : List Record} (h : List.Sorted recLe l) :
    List.Sorted recLe (l.map normalizeRec) := by
  rw [List.Sorted, List.pairwise_map]
  exact h.imp (fun hab => by
    rw [recLe, sort_key_normalizeRec, sort_key_normalizeRec]; exact hab)

/-! ### Claim C7: idempotence of canonicalization -/

/-- C7: canonicalization is idempotent: sorting an already canonically
sorted list leaves it unchanged, and re-normalizing already key-sorted
records changes nothing. -/
theorem claim7_canonicalize_idempotent (x : List Record) :
    canonicalize (canonicalize x) = canonicalize x := by
  rw [canonicalize, canonicalize]
  have hs : List.Sorted recLe ((List.insertionSort recLe x).map normalizeRec) :=
    sorted_map_normalizeRec (List.sorted_insertionSort recLe x)
  rw [List.Sorted.insertionSort_eq hs, List.map_map,
    show normalizeRec ∘ normalizeRec = normalizeRec from funext normalizeRec_idem]

/-! ### Permutation lemmas for canonicalization determinism -/

theorem getVal_perm {d e : Record} (h : d.Perm e) :
    (d.map Prod.fst).Nodup → ∀ k, getVal k d = getVal k e := by
  induction h with
  | nil => intro _ k; rfl
  | cons p h' ih =>
      intro hnd k
      obtain ⟨kp, vp⟩ := p
      rw [List.map_cons, List.nodup_cons] at hnd
      by_cases hk : kp = k
      · simp [getVal, hk]
      · simp [getVal, hk, ih hnd.2 k]
  | swap p q l =>
      intro hnd k
      obtain ⟨kp, vp⟩ := p
      obtain ⟨kq, vq⟩ := q
      simp only [List.map_cons, List.nodup_cons, List.mem_cons, not_or] at hnd
      have hpq : kq ≠ kp := hnd.1.1
      by_cases h1 : kq = k
      · subst h1
        simp [getVal, hpq.symm]
      · by_cases h2 : kp = k
        · simp [getVal, h1, h2]
        · simp [getVal, h1, h2]
  | trans h1 h2 ih1 ih2 =>
      intro hnd k
      rw [ih1 hnd k, ih2 ((h1.map Prod.fst).nodup_iff.mp hnd) k]

theorem sort_key_perm {d e : Record} (h : d.Perm e)
    (hnd : (d.map Prod.fst).Nodup) : sort_key d = sort_key e := by
  rw [sort_key, sort_key, getVal_perm h hnd "name", getVal_perm h hnd "id"]

theorem normalizeRec_perm {d e : Record} (h : d.Perm e)
    (hnd : (d.map Prod.fst).Nodup) : normalizeRec d = normalizeRec e := by
  have hkeys : sortStrings (d.map Prod.fst) = sortStrings (e.map Prod.fst) :=
    List.eq_of_perm_of_sorted
      (((List.perm_insertionSort strLe _).trans (h.map Prod.fst)).trans
        (List.perm_insertionSort strLe _).symm)
      (List.sorted_insertionSort strLe _) (List.sorted_insertionSort strLe _)
  rw [normalizeRec, normalizeRec, hkeys]
  exact List.map_congr_left (fun k _ => by rw [getVal_perm h hnd k])

/-- The pointwise relation propagated through the canonicalizer: records are
field-permutations of each other and the left one is duplicate-key-free. -/
def recPermWf (a b : Record) : Prop := a.Perm b ∧ (a.map Prod.fst).Nodup

theorem recPermWf_recLe_iff {a a' b b' : Record} (ha : recPermWf a a')
    (hb : recPermWf b b') : recLe a b ↔ recLe a' b' := by
  rw [recLe, recLe, sort_key_perm ha.1 ha.2, sort_key_perm hb.1 hb.2]

theorem forall₂_orderedInsert {a a' : Record} (ha : recPermWf a a') :
    ∀ {l l'}, List.Forall₂ recPermWf l l' →
      List.Forall₂ recPermWf (List.orderedInsert recLe a l)
        (List.orderedInsert recLe a' l') := by
  intro l l' h
  induction h with
  | nil => exact .cons ha .nil
  | @cons b b' t t' hbb' htail ih =>
      rw [List.orderedInsert, List.orderedInsert]
      by_cases hr : recLe a b
      · rw [if_pos hr, if_pos ((recPermWf_recLe_iff ha hbb').mp hr)]
        exact .cons ha (.cons hbb' htail)
      · rw [if_neg hr, if_neg (fun hr' => hr ((recPermWf_recLe_iff ha hbb').mpr hr'))]
        exact .cons hbb' ih

theorem forall₂_insertionSort :
    ∀ {l l'}, List.Forall₂ recPermWf l l' →
      List.Forall₂ recPermWf (List.insertionSort recLe l)
        (List.insertionSort recLe l') := by
  intro l l' h
  induction h with
  | nil => exact .nil
  | @cons b b' t t' hbb' htail ih =>
      simp only [List.insertionSort]
      exact forall₂_orderedInsert hbb' ih

theorem forall₂_map_normalizeRec :
    ∀ {l l'}, List.Forall₂ recPermWf l l' →
      l.map normalizeRec = l'.map normalizeRec := by
  intro l l' h
  induction h with
  | nil => rfl
  | @cons b b' t t' hbb' htail ih =>
      rw [List.map_cons, List.map_cons, normalizeRec_perm hbb'.1 hbb'.2, ih]

/-! ### Claim C4: determinism irrespective of insertion history -/

/-- C4 counterexample: two single-record inputs that are equal as values
(the nested mapping under `x` has its two fields in opposite insertion
orders, so the records compare equal in Python) canonicalize to different
record lists and serialize to different bytes: the canonicalizer sorts only
top-level keys, nested mappings keep their insertion order. -/
theorem claim4_counterexample :
    deepSort (JVal.obj [("id", JVal.str "a"),
        ("x", JVal.obj [("b", JVal.int 1), ("a", JVal.int 2)])]) =
      deepSort (JVal.obj [("id", JVal.str "a"),
        ("x", JVal.obj [("a", JVal.int 2), ("b", JVal.int 1)])]) ∧
    canonicalize [[("id", JVal.str "a"),
        ("x", JVal.obj [("b", JVal.int 1), ("a", JVal.int 2)])]] ≠
      canonicalize [[("id", JVal.str "a"),
        ("x", JVal.obj [("a", JVal.int 2), ("b", JVal.int 1)])]] ∧
    writeJson (canonicalize [[("id", JVal.str "a"),
        ("x", JVal.obj [("b", JVal.int 1), ("a", JVal.int 2)])]]) ≠
      writeJson (canonicalize [[("id", JVal.str "a"),
        ("x", JVal.obj [("a", JVal.int 2), ("b", JVal.int 1)])]]) := by
  refine ⟨by decide, by decide, by decide⟩

/-- C4 (amended): the canonicalizer is insensitive to the insertion order of
TOP-LEVEL record fields only: if two input sequences are pointwise field
permutations of each other (with duplicate-free field names, and nested
values identical including nested mapping order), the canonicalized outputs
and their serialized bytes coincide.  Determinism across runs holds since
the canonicalizer is a pure function. -/
theorem claim4_canonicalize_top_order_independent (X Y : List Record)
    (h : List.Forall₂ (fun r s => r.Perm s) X Y)
    (hwf : ∀ r ∈ X, (r.map Prod.fst).Nodup) :
    canonicalize X = canonicalize Y ∧
      writeJson (canonicalize X) = writeJson (canonicalize Y) := by
  have hR : List.Forall₂ recPermWf X Y := by
    induction h with
    | nil => exact .nil
    | @cons a b t t' hab htail ih =>
        exact .cons ⟨hab, hwf a (List.mem_cons_self a t)⟩
          (ih (fun r hr => hwf r (List.mem_cons_of_mem _ hr)))
  have heq : canonicalize X = canonicalize Y := by
    rw [canonicalize, canonicalize]
    exact forall₂_map_normalizeRec (forall₂_insertionSort hR)
  exact ⟨heq, by rw [heq]⟩

theorem claim4_witness :
    canonicalize [[("name", JVal.str "n"), ("id", JVal.str "i")]] =
        canonicalize [[("id", JVal.str "i"), ("name", JVal.str "n")]] ∧
      writeJson (canonicalize [[("name", JVal.str "n"), ("id", JVal.str "i")]]) =
        writeJson (canonicalize [[("id", JVal.str "i"), ("name", JVal.str "n")]]) :=
  claim4_canonicalize_top_order_independent
    [[("name", JVal.str "n"), ("id", JVal.str "i")]]
    [[("id", JVal.str "i"), ("name", JVal.str "n")]]
    (.cons (by decide) .nil) (by decide)

/-! ### Claim C3: key derivation algorithm -/

theorem firstUsable_findSome (r : Record) : ∀ fs : List String,
    fs.findSome? (fun f => (getVal f r).bind usableTextAmended) =
      (firstUsable r fs).map pyStrVal
  | [] => rfl
  | f :: fs => by
      cases hg : getVal f r with
      | none =>
          rw [List.findSome?_cons, firstUsable, hg]
          exact firstUsable_findSome r fs
      | some v =>
          rw [List.findSome?_cons, firstUsable, hg]
          cases v with
          | null => exact firstUsable_findSome r fs
          | bool b => rfl
          | int n => rfl
          | str s => rfl
          | arr xs => exact firstUsable_findSome r fs
          | obj gs => exact firstUsable_findSome r fs

/-- C3 counterexample: a record whose identifier field holds a boolean and
whose slug field holds text.  The claim (first field whose value is text or
an integer wins) predicts key `"x"` from the slug; the code accepts the
boolean identifier (Python's `bool` is an `int`) and produces `"true"`. -/
theorem claim3_counterexample :
    deriveKeySpec [("id", JVal.bool true), ("slug", JVal.str "x")] = "x" ∧
    item_key [("id", JVal.bool true), ("slug", JVal.str "x")] = "true" ∧
    item_key [("id", JVal.bool true), ("slug", JVal.str "x")] ≠
      deriveKeySpec [("id", JVal.bool true), ("slug", JVal.str "x")] := by
  refine ⟨by decide, by decide, by decide⟩

/-- C3 (amended): key derivation inspects identifier, slug, display-name in
that fixed order; the first field present whose value is text, an integer,
or a boolean (accepted because the implementation's `isinstance` check
treats `bool` as an `int`) determines the key, converted to Python text,
lower-cased, and stripped; with no usable field the key is the
deterministic sorted-field serialization of the whole record, so every
record gets some key. -/
theorem claim3_key_derivation (r : Record) : item_key r = deriveKeyAmended r := by
  rw [item_key, deriveKeyAmended, List.filterMap_head?, firstUsable_findSome r]
  cases h : firstUsable r ["id", "slug", "name"] with
  | none => rfl
  | some v => rfl

/-! ### Claim C10: boolean identifiers -/

/-- C10: a record whose identifier field holds a boolean gets that boolean
as its key (`"true"` / `"false"` after `str(...).lower().strip()`); the
slug and display-name fields are never consulted. -/
theorem claim10_bool_id_key (r : Record) (b : Bool)
    (h : getVal "id" r = some (JVal.bool b)) :
    item_key r = if b then "true" else "false" := by
  rw [item_key]
  have hfu : firstUsable r ["id", "slug", "name"] = some (JVal.bool b) := by
    rw [firstUsable, h]
    rfl
  rw [hfu]
  cases b
  · show pyStrip (pyLower (pyStrVal (JVal.bool false))) = "false"
    decide
  · show pyStrip (pyLower (pyStrVal (JVal.bool true))) = "true"
    decide

theorem claim10_witness :
    item_key [("id", JVal.bool true), ("slug", JVal.str "x"), ("name", JVal.str "y")] =
      if true then "true" else "false" :=
  claim10_bool_id_key
    [("id", JVal.bool true), ("slug", JVal.str "x"), ("name", JVal.str "y")]
    true (by decide)

/-! ### Claim C5: end-to-end example -/

/-- C5 counterexample: the spec's expected output lists Widget before
Gadget, but the code sorts by lower-cased name, and `"gadget" < "widget"`
puts Gadget first; the output is not the claimed sequence. -/
theorem claim5_counterexample :
    merge_items
      [[("id", JVal.str "a1"), ("name", JVal.str "Widget"), ("tier", JVal.int 1)]]
      [[("id", JVal.str "a1"), ("name", JVal.str "Widget"), ("tier", JVal.int 2),
        ("notes", JVal.str "")],
       [("id", JVal.str "b2"), ("name", JVal.str "Gadget")]] ≠
    [[("id", JVal.str "a1"), ("name", JVal.str "Widget"), ("tier", JVal.int 2)],
     [("id", JVal.str "b2"), ("name", JVal.str "Gadget")]] := by decide

/-- C5 (amended): on the spec's example inputs, `notes` is omitted because
it is empty, `tier` is overwritten to 2, and the output is sorted by
lower-cased name, so Gadget comes first and Widget second. -/
theorem claim5_end_to_end :
    merge_items
      [[("id", JVal.str "a1"), ("name", JVal.str "Widget"), ("tier", JVal.int 1)]]
      [[("id", JVal.str "a1"), ("name", JVal.str "Widget"), ("tier", JVal.int 2),
        ("notes", JVal.str "")],
       [("id", JVal.str "b2"), ("name", JVal.str "Gadget")]] =
    [[("id", JVal.str "b2"), ("name", JVal.str "Gadget")],
     [("id", JVal.str "a1"), ("name", JVal.str "Widget"), ("tier", JVal.int 2)]] := by
  decide
